import Mathlib

/-!
Verification of the two-pass Basic Computer assembler (src/assembler.py).

The assembler's state is shallowly embedded: a tokenized source line is a
list of lowercase strings (the content of `self.__asm`), a Python dict is an
association list whose insertion preserves the position of an existing key
(as Python dict assignment does), and every Python exception (AssertionError,
IndexError, KeyError, ValueError) is an `Except.error` carrying a short tag;
the assertion message of the first pass is reproduced verbatim since a claim
speaks about it.
-/

/-- A tokenized source line: `self.__asm[i]`, a list of lowercase tokens. -/
abbrev Line := List String

/-- An opcode table (`self.__mri_table` etc.): the items of a Python dict
mapping mnemonic to bit-pattern string.  Keys are unique, as in a dict. -/
abbrev Table := List (String × String)

/-- The memory image under construction (`self.__bin`): address string to
either an assigned word or the `None` placeholder of the first pass. -/
abbrev Dict := List (String × Option String)

/-- Keys of an association list, in insertion order (`list(d.keys())`). -/
def dkeys (d : List (String × α)) : List String := d.map Prod.fst

/-- Python `d[k]` as a total lookup: the value at key `k`, if present. -/
def dlookup : List (String × α) → String → Option α
  | [], _ => none
  | (k, v) :: kvs, x => if k = x then some v else dlookup kvs x

/-- Python dict assignment `d[k] = v`: update in place if the key exists
(keeping its position in the key order), otherwise append. -/
def dinsert : List (String × α) → String → α → List (String × α)
  | [], k, v => [(k, v)]
  | (k₁, v₁) :: tl, k, v =>
    if k₁ = k then (k, v) :: tl else (k₁, v₁) :: dinsert tl k v

/-- `self.__islabel`: a token is a label iff it ends with a comma.
Stated on the character list so that it evaluates easily. -/
def islabel (s : String) : Bool := s.data.getLast? = some ','

/-- Value of one lowercase hexadecimal digit, as accepted by `int(tok, 16)`
on the lowercased tokens the reader produces. -/
def hexDigitVal (c : Char) : Option Nat :=
  if '0' ≤ c ∧ c ≤ '9' then some (c.toNat - '0'.toNat)
  else if 'a' ≤ c ∧ c ≤ 'f' then some (c.toNat - 'a'.toNat + 10)
  else none

/-- Value of one decimal digit, as accepted by `int(tok)`. -/
def decDigitVal (c : Char) : Option Nat :=
  if '0' ≤ c ∧ c ≤ '9' then some (c.toNat - '0'.toNat) else none

/-- Parse a nonempty digit string in the given base; `none` models the
`ValueError` that Python's `int` raises on any other text. -/
def parseDigits (dv : Char → Option Nat) (base : Nat) (s : String) : Option Nat :=
  if s.data.isEmpty then none
  else s.data.foldl (fun acc c => acc.bind fun a => (dv c).map fun d => a * base + d) (some 0)

/-- `int(s, 16)` on a lowercase hexadecimal numeral token. -/
def parseHex (s : String) : Option Nat := parseDigits hexDigitVal 16 s

/-- `int(s)` on a decimal numeral token. -/
def parseDec (s : String) : Option Nat := parseDigits decDigitVal 10 s

/-- Python `'{:b}'.format(n)`: binary digits of `n`, no leading zeros,
`"0"` for zero. -/
def natToBin (n : Nat) : String := String.mk (Nat.toDigits 2 n)

/-- Python `hex(n)[2:]` for a nonnegative `n`: lowercase hex digits. -/
def natToHex (n : Nat) : String := String.mk (Nat.toDigits 16 n)

/-- Python `s.zfill(w)`: left-pad with zeros up to width `w`; a string
already at least `w` long is returned unchanged (never truncated). -/
def zfill (w : Nat) (s : String) : String :=
  String.mk (List.replicate (w - s.length) '0') ++ s

/-- `self.__format2bin(num, numformat, format_bits)`: convert a decimal or
hexadecimal literal to binary text and zero-pad it to `format_bits`.  As in
the source there is no overflow check: a value needing more than
`format_bits` digits is returned at its natural (wider) length. -/
def format2bin (num : String) (numformat : String) (format_bits : Nat) : Except String String :=
  if numformat = "dec" then
    match parseDec num with
    | some n => .ok (zfill format_bits (natToBin n))
    | none => .error "ValueError"
  else if numformat = "hex" then
    match parseHex num with
    | some n => .ok (zfill format_bits (natToBin n))
    | none => .error "ValueError"
  else .error "format2bin: not supported format provided."

/-- The address computation of the first pass, source line 145:
`self.__format2bin(hex(int(org, 16) + inc)[2::], 'hex', 12)`.
For a negative sum, `hex` produces `-0x...` and the `[2:]` slice leaves a
digit string still holding the `x`, so the inner `int` raises `ValueError`;
for a nonnegative sum the hex round trip feeds `format2bin`. -/
def addrCtr (org : String) (inc : Int) : Except String String :=
  match parseHex org with
  | none => .error "ValueError"
  | some o =>
    let n : Int := (o : Int) + inc
    if n < 0 then .error "ValueError"
    else format2bin (natToHex n.toNat) "hex" 12

/-- Outcome of one loop iteration of either pass: a Python exception, the
`break` on the terminal directive, or the next loop state. -/
inductive StepRes (σ : Type) where
  | err : String → StepRes σ
  | stop : StepRes σ
  | cont : σ → StepRes σ
deriving DecidableEq

/-- The mutable state of `self.__first_pass`: the current origin token,
the offset counter `inc`, the `linecounter`, the address symbol table and
the memory image holding `None` placeholders. -/
structure S1 where
  org : String
  inc : Int
  lc : Nat
  ast : Table
  bin : Dict
deriving DecidableEq

/-- One iteration of the first-pass loop (source lines 138-151) on line `l`:
stop at `end`; on `org` take the new origin and reset the counter to -1;
bump `linecounter`; compute the 12-bit address; a label must be followed by
another token (else the assertion fires, reporting `linecounter + 1`) and is
recorded bound to this address; finally a `None` placeholder is stored at
the address and the counter is incremented. -/
def fp_step (s : S1) (l : Line) : StepRes S1 :=
  match l.head? with
  | none => .err "IndexError"
  | some t0 =>
    if t0 = "end" then .stop
    else
      match (if t0 = "org" then l[1]?.map (fun v => (v, (-1 : Int))) else some (s.org, s.inc)) with
      | none => .err "IndexError"
      | some (org, inc) =>
        match addrCtr org inc with
        | .error e => .err e
        | .ok ctr =>
          if islabel t0 then
            if 2 ≤ l.length then
              .cont ⟨org, inc + 1, s.lc + 1, dinsert s.ast t0 ctr, dinsert s.bin ctr none⟩
            else .err ("Invalid Assembly Code, in line " ++ toString (s.lc + 2))
          else .cont ⟨org, inc + 1, s.lc + 1, s.ast, dinsert s.bin ctr none⟩

/-- Run first-pass iterations over the remaining lines; `stop` ends the scan
successfully with the current state, an exception aborts the assembly. -/
def fp_run : List Line → S1 → Except String S1
  | [], s => .ok s
  | l :: ls, s =>
    match fp_step s l with
    | .err e => .error e
    | .stop => .ok s
    | .cont s' => fp_run ls s'

/-- `self.__first_pass`: read the initial origin from the second token of the
first line, then scan lines `1 .. len - 2` (Python `range(1, len - 1)`). -/
def first_pass (asm : List Line) : Except String S1 :=
  match asm.head? with
  | none => .error "IndexError"
  | some l0 =>
    match l0[1]? with
    | none => .error "IndexError"
    | some org0 => fp_run ((asm.drop 1).dropLast) ⟨org0, 0, 0, [], []⟩

/-- `self.__rm_comments`: truncate each line at its first token that starts
with the comment marker `/`. -/
def rm_comments (asm : List Line) : List Line :=
  asm.map (List.takeWhile (fun t => !(t.data.head? = some '/')))

/-- The mutable state of `self.__second_pass`: the loop index `i` (the
write goes to key position `i - 1`), the memory image, and the `flag` set
once a halt instruction has been seen. -/
structure S2 where
  idx : Nat
  bin : Dict
  flag : Bool
deriving DecidableEq

/-- The assignment `self.__bin[list(self.__bin.keys())[i - 1]] = w` common
to every encoding branch of the second pass, together with the new value of
`flag`; an out-of-range key position is the `IndexError` Python would raise. -/
def spWrite (s : S2) (fl : Bool) (w : String) : StepRes S2 :=
  match (dkeys s.bin)[s.idx - 1]? with
  | none => .err "IndexError"
  | some k => .cont ⟨s.idx + 1, dinsert s.bin k (some w), fl⟩

/-- A second-pass iteration that writes nothing (an unclassifiable line, or
a labelled data line with a bad format keyword, where the source merely
prints an error text and continues). -/
def spSkip (s : S2) : StepRes S2 := .cont ⟨s.idx + 1, s.bin, s.flag⟩

/-- One iteration of the second-pass loop (source lines 162-196) on line
`l`, mirroring the elif chain: stop at `end`; a line containing `hlt`
writes the halt word and sets the flag; then register-reference mnemonic at
position 0 or 1; memory-reference mnemonic at position 0 or 1, whose word
is the indirection bit (`'1'` iff some token from position 1 on equals
`i`), the opcode field, and the symbol-table address of the operand token
with a comma appended; then input-output mnemonic at position 0 or 1; then
a labelled `hex`/`dec` data line once the flag is set.  Reading a missing
token is an `IndexError` and a failing table lookup a `KeyError`, exactly
where the source would raise them. -/
def sp_step (mri rri ioi ast : Table) (l : Line) (s : S2) : StepRes S2 :=
  match l.head? with
  | none => .err "IndexError"
  | some t0 =>
    if t0 = "end" then .stop
    else if l.contains "hlt" then
      match dlookup rri "hlt" with
      | none => .err "KeyError"
      | some w => spWrite s true w
    else
      match dlookup rri t0 with
      | some w => spWrite s s.flag w
      | none =>
        match l[1]? with
        | none => .err "IndexError"
        | some t1 =>
          match dlookup rri t1 with
          | some w => spWrite s s.flag w
          | none =>
            match dlookup mri t0 with
            | some opc =>
              match dlookup ast (t1 ++ ",") with
              | none => .err "KeyError"
              | some a =>
                spWrite s s.flag ((if (l.drop 1).contains "i" then "1" else "0") ++ opc ++ a)
            | none =>
              match dlookup mri t1 with
              | some opc =>
                match l[2]? with
                | none => .err "IndexError"
                | some t2 =>
                  match dlookup ast (t2 ++ ",") with
                  | none => .err "KeyError"
                  | some a =>
                    spWrite s s.flag ((if (l.drop 1).contains "i" then "1" else "0") ++ opc ++ a)
              | none =>
                match dlookup ioi t0 with
                | some w => spWrite s s.flag w
                | none =>
                  match dlookup ioi t1 with
                  | some w => spWrite s s.flag w
                  | none =>
                    if islabel t0 && s.flag then
                      if t1 = "hex" then
                        match l[2]? with
                        | none => .err "IndexError"
                        | some t2 =>
                          match format2bin t2 "hex" 16 with
                          | .error e => .err e
                          | .ok w => spWrite s s.flag w
                      else if t1 = "dec" then
                        match l[2]? with
                        | none => .err "IndexError"
                        | some t2 =>
                          match format2bin t2 "dec" 16 with
                          | .error e => .err e
                          | .ok w => spWrite s s.flag w
                      else spSkip s
                    else spSkip s

/-- Run second-pass iterations over the remaining lines. -/
def sp_run (mri rri ioi ast : Table) : List Line → S2 → Except String S2
  | [], s => .ok s
  | l :: ls, s =>
    match sp_step mri rri ioi ast l s with
    | .err e => .error e
    | .stop => .ok s
    | .cont s' => sp_run mri rri ioi ast ls s'

/-- `self.__second_pass` up to its pruning loop: scan lines
`1 .. len - 2` with the loop index starting at 1 and the flag cleared. -/
def second_pass (mri rri ioi ast : Table) (asm : List Line) (bin : Dict) : Except String S2 :=
  sp_run mri rri ioi ast ((asm.drop 1).dropLast) ⟨1, bin, false⟩

/-- The pruning loop ending `self.__second_pass` (source lines 197-201):
pop every key whose value is still the `None` placeholder. -/
def prune (d : Dict) : Dict := d.filter (fun kv => kv.2.isSome)

/-- `Assembler.assemble` on an already-loaded token-line list: assert the
source is nonempty, strip comments, run both passes and return the pruned
memory image. -/
def assemble (asm : List Line) (mri rri ioi : Table) : Except String Dict :=
  if asm.isEmpty then .error "AssertionError: no assembly file provided"
  else
    match first_pass (rm_comments asm) with
    | .error e => .error e
    | .ok s1 =>
      match second_pass mri rri ioi s1.ast (rm_comments asm) s1.bin with
      | .error e => .error e
      | .ok s2 => .ok (prune s2.bin)

/-- The restriction of the second-pass elif chain to its two
memory-reference branches: the word the pass stores for line `l` when the
chain classifies it as a memory-reference instruction and the operand label
is bound in the symbol table, and `none` when any other branch (or an
exception) is taken instead. -/
def mriEncode (rri mri ast : Table) (l : Line) : Option String :=
  match l.head? with
  | none => none
  | some t0 =>
    if t0 = "end" then none
    else if l.contains "hlt" then none
    else if (dlookup rri t0).isSome then none
    else
      match l[1]? with
      | none => none
      | some t1 =>
        if (dlookup rri t1).isSome then none
        else
          match dlookup mri t0 with
          | some opc =>
            (dlookup ast (t1 ++ ",")).map
              (fun a => (if (l.drop 1).contains "i" then "1" else "0") ++ opc ++ a)
          | none =>
            match dlookup mri t1, l[2]? with
            | some opc, some t2 =>
              (dlookup ast (t2 ++ ",")).map
                (fun a => (if (l.drop 1).contains "i" then "1" else "0") ++ opc ++ a)
            | _, _ => none

/-- Dict assignment makes the assigned key look up the assigned value. -/
theorem dlookup_dinsert (d : List (String × α)) (k : String) (v : α) :
    dlookup (dinsert d k v) k = some v := by
  induction d with
  | nil => simp [dinsert, dlookup]
  | cons kv tl ih =>
    obtain ⟨k₁, v₁⟩ := kv
    by_cases h1 : k₁ = k
    · simp [dinsert, h1, dlookup]
    · simp only [dinsert, if_neg h1, dlookup, if_neg h1]
      exact ih

/-- Dict assignment leaves every other key's lookup unchanged. -/
theorem dlookup_dinsert_ne (d : List (String × α)) (k k' : String) (v : α)
    (h : k' ≠ k) : dlookup (dinsert d k v) k' = dlookup d k' := by
  induction d with
  | nil => simp [dinsert, dlookup, if_neg (fun hh : k = k' => h hh.symm)]
  | cons kv tl ih =>
    obtain ⟨k₁, v₁⟩ := kv
    by_cases h1 : k₁ = k
    · simp only [dinsert, if_pos h1, dlookup, if_neg (fun hh : k = k' => h hh.symm), h1]
    · simp only [dinsert, if_neg h1, dlookup]
      by_cases h2 : k₁ = k'
      · simp [h2]
      · simp only [if_neg h2]
        exact ih

/-- A key is among the keys after an assignment iff it is the assigned key
or was already present. -/
theorem mem_dkeys_dinsert (d : List (String × α)) (k : String) (v : α)
    (x : String) (h : x ∈ dkeys (dinsert d k v)) : x = k ∨ x ∈ dkeys d := by
  induction d with
  | nil => simpa [dinsert, dkeys] using h
  | cons kv tl ih =>
    obtain ⟨k₁, v₁⟩ := kv
    by_cases h1 : k₁ = k
    · simp only [dinsert, if_pos h1, dkeys, List.map_cons, List.mem_cons] at h ⊢
      tauto
    · simp only [dinsert, if_neg h1, dkeys, List.map_cons, List.mem_cons] at h ⊢
      rcases h with h | h
      · tauto
      · rcases ih h with h | h <;> tauto

/-- Assigning to a key already present keeps the key order unchanged. -/
theorem dkeys_dinsert_of_mem (d : List (String × α)) (k : String) (v : α)
    (h : k ∈ dkeys d) : dkeys (dinsert d k v) = dkeys d := by
  induction d with
  | nil => simp [dkeys] at h
  | cons kv tl ih =>
    obtain ⟨k₁, v₁⟩ := kv
    by_cases h1 : k₁ = k
    · simp [dinsert, if_pos h1, dkeys, h1]
    · simp only [dkeys, List.map_cons, List.mem_cons] at h
      rcases h with h | h
      · exact absurd h.symm h1
      · simp only [dinsert, if_neg h1, dkeys, List.map_cons]
        rw [show List.map Prod.fst (dinsert tl k v) = dkeys (dinsert tl k v) from rfl, ih h]
        rfl

/-- Dict assignment preserves distinctness of the keys. -/
theorem dkeys_dinsert_nodup (d : List (String × α)) (k : String) (v : α)
    (h : (dkeys d).Nodup) : (dkeys (dinsert d k v)).Nodup := by
  induction d with
  | nil => simp [dinsert, dkeys]
  | cons kv tl ih =>
    obtain ⟨k₁, v₁⟩ := kv
    simp only [dkeys, List.map_cons, List.nodup_cons] at h
    by_cases h1 : k₁ = k
    · simp only [dinsert, if_pos h1, dkeys, List.map_cons, List.nodup_cons]
      exact ⟨h1 ▸ h.1, h.2⟩
    · simp only [dinsert, if_neg h1, dkeys, List.map_cons, List.nodup_cons]
      refine ⟨fun hm => ?_, ih h.2⟩
      rcases mem_dkeys_dinsert tl k v k₁ hm with h2 | h2
      · exact h1 h2
      · exact h.1 h2

/-- Every entry of a dict after an assignment either carries the assigned
key or was already present. -/
theorem mem_dinsert (d : List (String × α)) (k : String) (v : α)
    (kv : String × α) (h : kv ∈ dinsert d k v) : kv.1 = k ∨ kv ∈ d := by
  induction d with
  | nil =>
    left
    rcases List.mem_singleton.mp h with rfl
    rfl
  | cons kv₁ tl ih =>
    obtain ⟨k₁, v₁⟩ := kv₁
    by_cases h1 : k₁ = k
    · simp only [dinsert, if_pos h1, List.mem_cons] at h
      rcases h with rfl | h
      · left; rfl
      · right; exact List.mem_cons_of_mem _ h
    · simp only [dinsert, if_neg h1, List.mem_cons] at h
      rcases h with rfl | h
      · right; exact List.mem_cons_self _ _
      · rcases ih h with h | h
        · left; exact h
        · right; exact List.mem_cons_of_mem _ h

/-- An entry whose word was assigned survives the pruning loop with the
same lookup result. -/
theorem dlookup_prune (d : Dict) (k : String) (w : String)
    (h : dlookup d k = some (some w)) : dlookup (prune d) k = some (some w) := by
  induction d with
  | nil => simp [dlookup] at h
  | cons kv tl ih =>
    obtain ⟨k₁, v₁⟩ := kv
    simp only [dlookup] at h
    by_cases h1 : k₁ = k
    · rw [if_pos h1] at h
      cases h
      simp [prune, List.filter, dlookup, h1]
    · rw [if_neg h1] at h
      cases v₁ with
      | none => simpa [prune, List.filter] using ih h
      | some w₁ =>
        simp only [prune, List.filter] at ih ⊢
        simpa [dlookup, if_neg h1] using ih h

/-- Pruning only removes entries, so key distinctness is preserved. -/
theorem dkeys_prune_nodup (d : Dict) (h : (dkeys d).Nodup) :
    (dkeys (prune d)).Nodup := by
  have hsub : List.Sublist (dkeys (prune d)) (dkeys d) :=
    (List.filter_sublist d).map Prod.fst
  exact h.sublist hsub

/-- Structure of a successful first-pass iteration: the line counter grows
by one, the memory image gains exactly one placeholder entry, and the
symbol table either is unchanged or has the line's leading label token
newly bound. -/
theorem fp_step_cont (s : S1) (l : Line) (s' : S1) (h : fp_step s l = .cont s') :
    s'.lc = s.lc + 1 ∧ (∃ c, s'.bin = dinsert s.bin c none) ∧
      (s'.ast = s.ast ∨
        ∃ t c, l.head? = some t ∧ islabel t = true ∧ s'.ast = dinsert s.ast t c) := by
  unfold fp_step at h
  repeat' split at h
  all_goals try exact StepRes.noConfusion h
  · cases h
    refine ⟨rfl, ⟨_, rfl⟩, Or.inr ⟨_, _, by assumption, by assumption, rfl⟩⟩
  · cases h
    exact ⟨rfl, ⟨_, rfl⟩, Or.inl rfl⟩

/-- A first-pass iteration breaks out of the loop only on the terminal
directive. -/
theorem fp_step_stop (s : S1) (l : Line) (h : fp_step s l = .stop) :
    l.head? = some "end" := by
  unfold fp_step at h
  repeat' split at h
  all_goals try exact StepRes.noConfusion h
  subst_vars
  assumption

/-- Run the first-pass loop keeping only fully-continuing executions:
`some` exactly when no iteration raised or hit the terminal directive. -/
def fp_runC : List Line → S1 → Option S1
  | [], s => some s
  | l :: ls, s =>
    match fp_step s l with
    | .cont s' => fp_runC ls s'
    | _ => none

/-- A fully-continuing run increments the line counter once per line. -/
theorem fp_runC_lc (pre : List Line) (s s' : S1) (h : fp_runC pre s = some s') :
    s'.lc = s.lc + pre.length := by
  induction pre generalizing s with
  | nil => cases h; rfl
  | cons l ls ih =>
    unfold fp_runC at h
    split at h
    · rename_i s₁ hstep
      have h1 := (fp_step_cont s l s₁ hstep).1
      have h2 := ih s₁ h
      rw [h2, h1, List.length_cons]
      omega
    · exact Option.noConfusion h

/-- A fully-continuing run over a prefix lets the loop resume at its final
state. -/
theorem fp_runC_append (pre rest : List Line) (s s' : S1)
    (h : fp_runC pre s = some s') : fp_run (pre ++ rest) s = fp_run rest s' := by
  induction pre generalizing s with
  | nil => cases h; rfl
  | cons l ls ih =>
    unfold fp_runC at h
    split at h
    · rename_i s₁ hstep
      simp only [List.cons_append, fp_run, hstep]
      exact ih s₁ h
    · exact Option.noConfusion h

/-- Lines whose leading token is not `x` never rebind `x` in the symbol
table. -/
theorem fp_run_ast_preserve (ls : List Line) (s sf : S1) (x : String)
    (h : fp_run ls s = .ok sf) (hx : ∀ l ∈ ls, l.head? ≠ some x) :
    dlookup sf.ast x = dlookup s.ast x := by
  induction ls generalizing s with
  | nil => cases h; rfl
  | cons l ls ih =>
    unfold fp_run at h
    split at h
    · exact Except.noConfusion h
    · cases h; rfl
    · rename_i s₁ hstep
      have hstep' := (fp_step_cont s l s₁ hstep).2.2
      have hrest := ih s₁ h (fun p hp => hx p (List.mem_cons_of_mem _ hp))
      rcases hstep' with hsame | ⟨t, c, ht, _, hins⟩
      · rw [hrest, hsame]
      · rw [hrest, hins, dlookup_dinsert_ne]
        intro hxt
        exact hx l (List.mem_cons_self _ _) (hxt ▸ ht)

/-- Every key the first pass ever records in the symbol table is a label
token. -/
theorem fp_run_ast_labels (ls : List Line) (s sf : S1)
    (h : fp_run ls s = .ok sf) (h0 : ∀ kv ∈ s.ast, islabel kv.1 = true) :
    ∀ kv ∈ sf.ast, islabel kv.1 = true := by
  induction ls generalizing s with
  | nil => cases h; exact h0
  | cons l ls ih =>
    unfold fp_run at h
    split at h
    · exact Except.noConfusion h
    · cases h; exact h0
    · rename_i s₁ hstep
      refine ih s₁ h ?_
      rcases (fp_step_cont s l s₁ hstep).2.2 with hsame | ⟨t, c, _, hlbl, hins⟩
      · rw [hsame]; exact h0
      · rw [hins]
        intro kv hkv
        rcases mem_dinsert s.ast t c kv hkv with h1 | h1
        · rw [h1]; exact hlbl
        · exact h0 kv h1

/-- The first pass keeps the memory-image keys distinct. -/
theorem fp_run_bin_nodup (ls : List Line) (s sf : S1)
    (h : fp_run ls s = .ok sf) (h0 : (dkeys s.bin).Nodup) :
    (dkeys sf.bin).Nodup := by
  induction ls generalizing s with
  | nil => cases h; exact h0
  | cons l ls ih =>
    unfold fp_run at h
    split at h
    · exact Except.noConfusion h
    · cases h; exact h0
    · rename_i s₁ hstep
      rcases (fp_step_cont s l s₁ hstep).2.1 with ⟨c, hbin⟩
      exact ih s₁ h (hbin ▸ dkeys_dinsert_nodup s.bin c none h0)

/-- A successful write targets the key at position `i - 1` of the current
key order and updates exactly that entry. -/
theorem spWrite_cont (s : S2) (fl : Bool) (w : String) (s' : S2)
    (h : spWrite s fl w = .cont s') :
    ∃ k, (dkeys s.bin)[s.idx - 1]? = some k ∧
      s' = ⟨s.idx + 1, dinsert s.bin k (some w), fl⟩ := by
  unfold spWrite at h
  split at h
  · exact StepRes.noConfusion h
  · rename_i k hk
    cases h
    exact ⟨k, hk, rfl⟩

/-- Structure of a successful second-pass iteration: the loop index grows by
one and the memory image is unchanged or has exactly the entry at key
position `i - 1` overwritten with an assigned word. -/
theorem sp_step_cont (mri rri ioi ast : Table) (l : Line) (s s' : S2)
    (h : sp_step mri rri ioi ast l s = .cont s') :
    s'.idx = s.idx + 1 ∧
      (s'.bin = s.bin ∨
        ∃ k w, (dkeys s.bin)[s.idx - 1]? = some k ∧
          s'.bin = dinsert s.bin k (some w)) := by
  unfold sp_step at h
  repeat' split at h
  all_goals try exact StepRes.noConfusion h
  all_goals
    first
    | (cases h; exact ⟨rfl, Or.inl rfl⟩)
    | (rcases spWrite_cont _ _ _ _ h with ⟨k, hk, rfl⟩
       exact ⟨rfl, Or.inr ⟨k, _, hk, rfl⟩⟩)

/-- A write never breaks out of the loop. -/
theorem spWrite_ne_stop (s : S2) (fl : Bool) (w : String) :
    spWrite s fl w ≠ .stop := by
  unfold spWrite
  split
  · exact fun hh => StepRes.noConfusion hh
  · exact fun hh => StepRes.noConfusion hh

/-- A second-pass iteration breaks out of the loop only on the terminal
directive. -/
theorem sp_step_stop (mri rri ioi ast : Table) (l : Line) (s : S2)
    (h : sp_step mri rri ioi ast l s = .stop) : l.head? = some "end" := by
  unfold sp_step at h
  repeat' split at h
  all_goals
    first
    | exact StepRes.noConfusion h
    | exact absurd h (spWrite_ne_stop _ _ _)
    | (subst_vars; assumption)

/-- A successful second-pass iteration never changes the key order of the
memory image: every write targets a key that is already present. -/
theorem sp_step_keys (mri rri ioi ast : Table) (l : Line) (s s' : S2)
    (h : sp_step mri rri ioi ast l s = .cont s') : dkeys s'.bin = dkeys s.bin := by
  rcases (sp_step_cont mri rri ioi ast l s s' h).2 with hsame | ⟨k, w, hk, hins⟩
  · rw [hsame]
  · rw [hins]
    exact dkeys_dinsert_of_mem s.bin k (some w) (List.getElem?_mem hk)

/-- Running the second pass over a prefix that contains no terminal
directive leads to an intermediate state whose index has advanced once per
line and whose key order is untouched. -/
theorem sp_run_split (mri rri ioi ast : Table) (pre rest : List Line) (s sf : S2)
    (h : sp_run mri rri ioi ast (pre ++ rest) s = .ok sf)
    (hne : ∀ p ∈ pre, p.head? ≠ some "end") :
    ∃ s₁, sp_run mri rri ioi ast rest s₁ = .ok sf ∧
      s₁.idx = s.idx + pre.length ∧ dkeys s₁.bin = dkeys s.bin := by
  induction pre generalizing s with
  | nil => exact ⟨s, h, by simp, rfl⟩
  | cons p ps ih =>
    rw [List.cons_append] at h
    unfold sp_run at h
    split at h
    · exact Except.noConfusion h
    · rename_i hstep
      exact absurd (sp_step_stop mri rri ioi ast p s hstep)
        (hne p (List.mem_cons_self _ _))
    · rename_i s₁ hstep
      rcases ih s₁ h (fun q hq => hne q (List.mem_cons_of_mem _ hq)) with
        ⟨s₂, hrun, hidx, hkeys⟩
      refine ⟨s₂, hrun, ?_, ?_⟩
      · rw [hidx, (sp_step_cont mri rri ioi ast p s s₁ hstep).1, List.length_cons]
        omega
      · rw [hkeys, sp_step_keys mri rri ioi ast p s s₁ hstep]

/-- Once the loop index has moved past a key position, the remaining
iterations never touch that entry again: later writes all target strictly
later positions of the (distinct) key order. -/
theorem sp_run_stable (mri rri ioi ast : Table) (ls : List Line) (s sf : S2)
    (h : sp_run mri rri ioi ast ls s = .ok sf) (hnd : (dkeys s.bin).Nodup)
    (j : Nat) (k : String) (hk : (dkeys s.bin)[j]? = some k)
    (hj : j + 1 < s.idx) :
    dlookup sf.bin k = dlookup s.bin k := by
  induction ls generalizing s with
  | nil => cases h; rfl
  | cons l ls ih =>
    unfold sp_run at h
    split at h
    · exact Except.noConfusion h
    · cases h; rfl
    · rename_i s₁ hstep
      have hidx := (sp_step_cont mri rri ioi ast l s s₁ hstep).1
      have hkeys := sp_step_keys mri rri ioi ast l s s₁ hstep
      have htail : dlookup sf.bin k = dlookup s₁.bin k := by
        refine ih s₁ h (hkeys ▸ hnd) (hkeys ▸ hk) ?_
        omega
      rcases (sp_step_cont mri rri ioi ast l s s₁ hstep).2 with hsame | ⟨k', w, hk', hins⟩
      · rw [htail, hsame]
      · have hne : k ≠ k' := by
          intro hkk
          have hjlen : j < (dkeys s.bin).length := (List.getElem?_eq_some.mp hk).1
          have : j = s.idx - 1 :=
            List.getElem?_inj hjlen hnd (by rw [hk, hk', hkk])
          omega
        rw [htail, hins, dlookup_dinsert_ne s.bin k' k (some w) hne]

/-- A line the elif chain classifies as an unlabelled memory-reference
instruction makes the second-pass iteration write exactly the composed
word. -/
theorem sp_step_mri_at0 (mri rri ioi ast : Table) (m x : String) (rest : Line)
    (s : S2) (opc a : String)
    (hend : ¬m = "end") (hhlt : (m :: x :: rest).contains "hlt" = false)
    (hr0 : dlookup rri m = none) (hr1 : dlookup rri x = none)
    (hm : dlookup mri m = some opc) (ha : dlookup ast (x ++ ",") = some a) :
    sp_step mri rri ioi ast (m :: x :: rest) s =
      spWrite s s.flag
        ((if ((m :: x :: rest).drop 1).contains "i" then "1" else "0") ++ opc ++ a) := by
  unfold sp_step
  simp only [List.head?_cons, hhlt, Bool.false_eq_true, if_false, if_neg hend, hr0,
    List.getElem?_cons_succ, List.getElem?_cons_zero, hr1, hm, ha]

/-- A line the elif chain classifies as a label-prefixed memory-reference
instruction makes the second-pass iteration write exactly the composed
word; note the indirection test still scans from position 1, the mnemonic
itself included. -/
theorem sp_step_mri_at1 (mri rri ioi ast : Table) (lb m x : String) (rest : Line)
    (s : S2) (opc a : String)
    (hend : ¬lb = "end") (hhlt : (lb :: m :: x :: rest).contains "hlt" = false)
    (hr0 : dlookup rri lb = none) (hr1 : dlookup rri m = none)
    (hm0 : dlookup mri lb = none) (hm : dlookup mri m = some opc)
    (ha : dlookup ast (x ++ ",") = some a) :
    sp_step mri rri ioi ast (lb :: m :: x :: rest) s =
      spWrite s s.flag
        ((if ((lb :: m :: x :: rest).drop 1).contains "i" then "1" else "0") ++ opc ++ a) := by
  unfold sp_step
  simp only [List.head?_cons, hhlt, Bool.false_eq_true, if_false, if_neg hend, hr0,
    List.getElem?_cons_succ, List.getElem?_cons_zero, hr1, hm0, hm, ha]

/-- A line with given first and second tokens is a two-head cons. -/
theorem cons2_of_head_get1 (l : Line) (t0 t1 : String)
    (h0 : l.head? = some t0) (h1 : l[1]? = some t1) :
    ∃ rest, l = t0 :: t1 :: rest := by
  cases l with
  | nil => exact Option.noConfusion h0
  | cons a tl =>
    cases tl with
    | nil => simp at h1
    | cons b tl₂ =>
      simp only [List.head?_cons, Option.some.injEq] at h0
      simp only [List.getElem?_cons_succ, List.getElem?_cons_zero, Option.some.injEq] at h1
      exact ⟨tl₂, by rw [h0, h1]⟩

/-- A line with given first, second and third tokens is a three-head cons. -/
theorem cons3_of_head_get12 (l : Line) (t0 t1 t2 : String)
    (h0 : l.head? = some t0) (h1 : l[1]? = some t1) (h2 : l[2]? = some t2) :
    ∃ rest, l = t0 :: t1 :: t2 :: rest := by
  rcases cons2_of_head_get1 l t0 t1 h0 h1 with ⟨rest, rfl⟩
  cases rest with
  | nil => simp at h2
  | cons c tl =>
    simp only [List.getElem?_cons_succ, List.getElem?_cons_zero, Option.some.injEq] at h2
    exact ⟨tl, by rw [h2]⟩

/-- Whenever the memory-reference restriction of the chain produces a word,
the full second-pass iteration writes exactly that word. -/
theorem sp_step_mriEncode (mri rri ioi ast : Table) (l : Line) (s : S2) (w : String)
    (henc : mriEncode rri mri ast l = some w) :
    sp_step mri rri ioi ast l s = spWrite s s.flag w := by
  unfold mriEncode at henc
  repeat' split at henc
  all_goals try exact Option.noConfusion henc
  · rename_i x0 t0 hhead hend hhlt hr0 x1 t1 hget1 hr1 x2 opc hmri hib
    rcases Option.map_eq_some'.mp henc with ⟨a, ha, rfl⟩
    rcases cons2_of_head_get1 l t0 t1 hhead hget1 with ⟨rest, rfl⟩
    rw [sp_step_mri_at0 mri rri ioi ast t0 t1 rest s opc a hend (by simpa using hhlt)
      (Option.not_isSome_iff_eq_none.mp (by simpa using hr0))
      (Option.not_isSome_iff_eq_none.mp (by simpa using hr1)) hmri ha, if_pos hib]
  · rename_i x0 t0 hhead hend hhlt hr0 x1 t1 hget1 hr1 x2 opc hmri hib
    rcases Option.map_eq_some'.mp henc with ⟨a, ha, rfl⟩
    rcases cons2_of_head_get1 l t0 t1 hhead hget1 with ⟨rest, rfl⟩
    rw [sp_step_mri_at0 mri rri ioi ast t0 t1 rest s opc a hend (by simpa using hhlt)
      (Option.not_isSome_iff_eq_none.mp (by simpa using hr0))
      (Option.not_isSome_iff_eq_none.mp (by simpa using hr1)) hmri ha, if_neg hib]
  · rename_i x0 lb hhead hend hhlt hr0 x1 m hget1 hr1 x2 hm0 x3 x4 opc t2 hmri hget2 hib
    rcases Option.map_eq_some'.mp henc with ⟨a, ha, rfl⟩
    rcases cons3_of_head_get12 l lb m t2 hhead hget1 hget2 with ⟨rest, rfl⟩
    rw [sp_step_mri_at1 mri rri ioi ast lb m t2 rest s opc a hend (by simpa using hhlt)
      (Option.not_isSome_iff_eq_none.mp (by simpa using hr0))
      (Option.not_isSome_iff_eq_none.mp (by simpa using hr1)) hm0 hmri ha, if_pos hib]
  · rename_i x0 lb hhead hend hhlt hr0 x1 m hget1 hr1 x2 hm0 x3 x4 opc t2 hmri hget2 hib
    rcases Option.map_eq_some'.mp henc with ⟨a, ha, rfl⟩
    rcases cons3_of_head_get12 l lb m t2 hhead hget1 hget2 with ⟨rest, rfl⟩
    rw [sp_step_mri_at1 mri rri ioi ast lb m t2 rest s opc a hend (by simpa using hhlt)
      (Option.not_isSome_iff_eq_none.mp (by simpa using hr0))
      (Option.not_isSome_iff_eq_none.mp (by simpa using hr1)) hm0 hmri ha, if_neg hib]

/-- If the second pass runs to completion and the line at loop position
`pre.length + 1` is classified as a memory-reference instruction with a
bound operand, then at the end of the pass the key at position
`pre.length` of the (distinct) key order holds exactly the composed
memory-reference word. -/
theorem mri_word_final (mri rri ioi ast : Table) (pre post : List Line) (l : Line)
    (bin0 : Dict) (fl0 : Bool) (sf : S2) (k w : String)
    (hrun : sp_run mri rri ioi ast (pre ++ l :: post) ⟨1, bin0, fl0⟩ = .ok sf)
    (hnd : (dkeys bin0).Nodup)
    (hk : (dkeys bin0)[pre.length]? = some k)
    (hne : ∀ p ∈ pre, p.head? ≠ some "end")
    (henc : mriEncode rri mri ast l = some w) :
    dlookup sf.bin k = some (some w) := by
  rcases sp_run_split mri rri ioi ast pre (l :: post) ⟨1, bin0, fl0⟩ sf hrun hne with
    ⟨s₁, hrun₁, hidx, hkeys⟩
  have hidx' : s₁.idx = 1 + pre.length := hidx
  unfold sp_run at hrun₁
  rw [sp_step_mriEncode mri rri ioi ast l s₁ w henc] at hrun₁
  unfold spWrite at hrun₁
  rw [hkeys] at hrun₁
  have hidx1 : s₁.idx - 1 = pre.length := by omega
  rw [hidx1, hk] at hrun₁
  have hstable := sp_run_stable mri rri ioi ast post
    ⟨s₁.idx + 1, dinsert s₁.bin k (some w), s₁.flag⟩ sf hrun₁
  have hkeys₂ : dkeys (dinsert s₁.bin k (some w)) = dkeys bin0 := by
    rw [← hkeys]
    exact dkeys_dinsert_of_mem s₁.bin k (some w) (by rw [hkeys]; exact List.getElem?_mem hk)
  rw [hstable (by rw [hkeys₂]; exact hnd) pre.length k (by rw [hkeys₂]; exact hk)
    (by show pre.length + 1 < s₁.idx + 1; omega)]
  exact dlookup_dinsert s₁.bin k (some w)

/-- A completed second pass never changes the key order of the memory
image. -/
theorem sp_run_keys (mri rri ioi ast : Table) (ls : List Line) (s sf : S2)
    (h : sp_run mri rri ioi ast ls s = .ok sf) : dkeys sf.bin = dkeys s.bin := by
  induction ls generalizing s with
  | nil => cases h; rfl
  | cons l ls ih =>
    unfold sp_run at h
    split at h
    · exact Except.noConfusion h
    · cases h; rfl
    · rename_i s₁ hstep
      rw [ih s₁ h, sp_step_keys mri rri ioi ast l s s₁ hstep]

/-- The first pass produces a memory image with distinct keys. -/
theorem first_pass_bin_nodup (asm : List Line) (s1 : S1)
    (h : first_pass asm = .ok s1) : (dkeys s1.bin).Nodup := by
  unfold first_pass at h
  split at h
  · exact Except.noConfusion h
  · split at h
    · exact Except.noConfusion h
    · exact fp_run_bin_nodup _ _ _ h (by simp [dkeys])

/-- A label token is neither the terminal nor the relocation directive. -/
theorem islabel_ne (t : String) (h : islabel t = true) : ¬t = "end" ∧ ¬t = "org" := by
  constructor <;> intro h' <;> subst h' <;> exact absurd h (by decide)

/-- The memory-reference restriction of the chain on an unlabelled
memory-reference line. -/
theorem mriEncode_at0 (rri mri ast : Table) (m x : String) (rest : Line)
    (opc a : String)
    (hend : ¬m = "end") (hhlt : (m :: x :: rest).contains "hlt" = false)
    (hr0 : dlookup rri m = none) (hr1 : dlookup rri x = none)
    (hm : dlookup mri m = some opc) (ha : dlookup ast (x ++ ",") = some a) :
    mriEncode rri mri ast (m :: x :: rest) =
      some ((if ((m :: x :: rest).drop 1).contains "i" then "1" else "0") ++ opc ++ a) := by
  unfold mriEncode
  simp only [List.head?_cons, if_neg hend, hhlt, Bool.false_eq_true, if_false, hr0,
    Option.isSome_none, List.getElem?_cons_succ, List.getElem?_cons_zero, hr1, hm, ha,
    Option.map_some']

/-- C2: the shared numeric conversion routine does not fail on a literal
that exceeds the requested 16-bit width; decimal 65536 (hex 10000) is
returned as the 17-character string of its full binary digits, with no
overflow error, no truncation, and a result wider than requested — the
code contradicts the documented contract that the result fits the width. -/
theorem c2_format2bin_overflow_unchecked :
    format2bin "65536" "dec" 16 = .ok "10000000000000000" ∧
      format2bin "10000" "hex" 16 = .ok "10000000000000000" ∧
      ("10000000000000000" : String).length = 17 :=
  ⟨rfl, rfl, by decide⟩

/-- C4 (counterexample): on the five-line program exactly as written in the
claim, with the operand spelled `x,`, the second pass looks up the symbol
`x,,` (operand plus appended comma) and the assembly aborts with a lookup
error instead of returning the three-entry image. -/
theorem c4_counterexample :
    assemble [["org", "100"], ["lda", "x,"], ["hlt"], ["x,", "hex", "1"], ["end"]]
      [("lda", "000")] [("hlt", "1111111111111111")] [] = .error "KeyError" := rfl

/-- C4 (amended): with the memory-reference operand written without its
trailing comma (`lda x`), assembling the five-line program against the
given tables yields exactly three entries: the lda word is indirection bit
0, opcode 000 and the address of the `x, hex 1` line (origin + 2), the hlt
word is the register-reference table literal, and the data word is
0000000000000001. -/
theorem c4_example_image :
    assemble [["org", "100"], ["lda", "x"], ["hlt"], ["x,", "hex", "1"], ["end"]]
      [("lda", "000")] [("hlt", "1111111111111111")] [] =
      .ok [("000100000000", some ("0" ++ "000" ++ "000100000010")),
           ("000100000001", some "1111111111111111"),
           ("000100000010", some "0000000000000001")] := rfl

/-- C9: a line holding a single token that is not the terminal directive,
not a halt, and not a register-reference mnemonic passes the first pass,
but the second pass reads the absent second token and aborts with an
out-of-range indexing error rather than reporting an unclassifiable line
or skipping it. -/
theorem c9_single_token_index_error :
    first_pass [["org", "100"], ["foo"], ["end"]] =
      .ok ⟨"100", 1, 1, [], [("000100000000", none)]⟩ ∧
      assemble [["org", "100"], ["foo"], ["end"]] [] [] [] = .error "IndexError" :=
  ⟨rfl, rfl⟩

/-- C3 (counterexample): after the first pass of the example program the
symbol table binds the key `x,` — the label token with its trailing
terminator still attached — and binds nothing to the stripped name `x`, so
a key of the symbol table does end with the terminator character. -/
theorem c3_counterexample :
    first_pass [["org", "100"], ["lda", "x"], ["hlt"], ["x,", "hex", "1"], ["end"]] =
      .ok ⟨"100", 3, 3, [("x,", "000100000010")],
        [("000100000000", none), ("000100000001", none), ("000100000010", none)]⟩ ∧
      islabel "x," = true ∧
      dlookup [("x,", "000100000010")] "x" = (none : Option String) :=
  ⟨rfl, rfl, rfl⟩

/-- C5 (counterexample): an assembly run that returns normally can carry a
surviving word that is not 16 characters: a post-halt literal of 65536
passes through the unchecked conversion and is stored as a 17-character
word. -/
theorem c5_counterexample :
    assemble [["org", "100"], ["hlt"], ["x,", "dec", "65536"], ["end"]]
      [] [("hlt", "1111111111111111")] [] =
      .ok [("000100000000", some "1111111111111111"),
           ("000100000001", some "10000000000000000")] ∧
      ("10000000000000000" : String).length ≠ 16 :=
  ⟨rfl, by decide⟩

/-- C6 (counterexample): the first pass does allocate a pending memory
image entry for a relocation directive line: after `org 200` is scanned,
the image holds a placeholder keyed at the 12-bit address of origin minus
one (here 0x1ff), inserted during the directive's own iteration. -/
theorem c6_counterexample :
    first_pass [["org", "100"], ["org", "200"], ["hlt"], ["end"]] =
      .ok ⟨"200", 1, 2, [], [("000111111111", none), ("001000000000", none)]⟩ ∧
      dlookup [("000111111111", none), ("001000000000", none)] "000111111111" =
        some (none : Option String) :=
  ⟨rfl, rfl⟩

/-- C1 (counterexample): a memory-reference table may bind the mnemonic
`i`; on the label-prefixed line `x, i x` the code tests for the
indirect-mode marker from position 1 onward, finds the mnemonic itself,
and stores a word with indirection bit 1, although no token after the
mnemonic equals the marker (the tokens after the mnemonic are just `x`). -/
theorem c1_counterexample :
    assemble [["org", "100"], ["x,", "i", "x"], ["end"]] [("i", "000")] [] [] =
      .ok [("000100000000", some "1000000100000000")] ∧
      (["x,", "i", "x"].drop 2).contains "i" = false ∧
      "1000000100000000" ≠ "0" ++ "000" ++ "000100000000" :=
  ⟨rfl, rfl, by decide⟩

/-- C1 (amended): for every line the second pass classifies as a
memory-reference instruction whose operand label is bound in the symbol
table, the word stored at the key allocated for that line (position
`i - 1` of the Pass-1 key order) survives pruning and equals the
concatenation of the indirection bit, the table's opcode field, and the
address bound to the operand label — where the indirection bit is 1 iff
some token from position 1 onward equals the marker `i` (for a
label-prefixed line this includes the mnemonic token itself). -/
theorem c1_mri_word (mri rri ioi ast : Table) (asm : List Line)
    (pre post : List Line) (l : Line) (bin0 : Dict) (sf : S2) (k w : String)
    (hsplit : (asm.drop 1).dropLast = pre ++ l :: post)
    (hrun : second_pass mri rri ioi ast asm bin0 = .ok sf)
    (hnd : (dkeys bin0).Nodup)
    (hk : (dkeys bin0)[pre.length]? = some k)
    (hne : ∀ p ∈ pre, p.head? ≠ some "end")
    (henc : mriEncode rri mri ast l = some w) :
    dlookup (prune sf.bin) k = some (some w) := by
  unfold second_pass at hrun
  rw [hsplit] at hrun
  exact dlookup_prune _ k w
    (mri_word_final mri rri ioi ast pre post l bin0 false sf k w hrun hnd hk hne henc)

/-- C1 witness: the amended statement evaluated on the example program. -/
theorem c1_mri_word_witness :
    dlookup (prune (⟨4, [("000100000000", some "0000000100000010"),
        ("000100000001", some "1111111111111111"),
        ("000100000010", some "0000000000000001")], true⟩ : S2).bin)
      "000100000000" = some (some "0000000100000010") :=
  c1_mri_word [("lda", "000")] [("hlt", "1111111111111111")] [] [("x,", "000100000010")]
    [["org", "100"], ["lda", "x"], ["hlt"], ["x,", "hex", "1"], ["end"]]
    [] [["hlt"], ["x,", "hex", "1"]] ["lda", "x"]
    [("000100000000", none), ("000100000001", none), ("000100000010", none)]
    ⟨4, [("000100000000", some "0000000100000010"),
        ("000100000001", some "1111111111111111"),
        ("000100000010", some "0000000000000001")], true⟩
    "000100000000" "0000000100000010"
    rfl rfl (by decide) rfl (fun p hp => absurd hp (List.not_mem_nil p)) rfl

/-- C3 (amended): every key the first pass records in the symbol table is
the label token with its trailing terminator still attached, so every key
of the table after Pass 1 ends with the comma (the second pass compensates
by appending a comma to operands before looking them up). -/
theorem c3_ast_keys_are_labels (asm : List Line) (s1 : S1)
    (h : first_pass asm = .ok s1) : ∀ kv ∈ s1.ast, islabel kv.1 = true := by
  unfold first_pass at h
  split at h
  · exact Except.noConfusion h
  · split at h
    · exact Except.noConfusion h
    · exact fp_run_ast_labels _ _ _ h (by intro kv hkv; cases hkv)

/-- C3 witness: the amended statement evaluated on the example program, at
the one entry its symbol table holds. -/
theorem c3_ast_keys_are_labels_witness : islabel ("x,", "000100000010").1 = true :=
  c3_ast_keys_are_labels
    [["org", "100"], ["lda", "x"], ["hlt"], ["x,", "hex", "1"], ["end"]]
    ⟨"100", 3, 3, [("x,", "000100000010")],
      [("000100000000", none), ("000100000001", none), ("000100000010", none)]⟩ rfl
    ("x,", "000100000010") (by decide)

/-- C5 (amended): whenever assemble returns normally, the returned image
binds every address key to exactly one assigned word: the keys are
distinct and no None placeholder allocated in Pass 1 survives the pruning;
the surviving words are exactly the strings Pass 2 assigned (they are 16
characters only when tables and literals respect the 16-bit width). -/
theorem c5_image_assigned_unique (asm : List Line) (mri rri ioi : Table)
    (img : Dict) (h : assemble asm mri rri ioi = .ok img) :
    (∀ kv ∈ img, kv.2.isSome = true) ∧ (dkeys img).Nodup := by
  unfold assemble at h
  split at h
  · exact Except.noConfusion h
  · split at h
    · exact Except.noConfusion h
    · rename_i s1 hfp
      split at h
      · exact Except.noConfusion h
      · rename_i s2 hsp
        cases h
        constructor
        · intro kv hkv
          exact (List.mem_filter.mp hkv).2
        · apply dkeys_prune_nodup
          have hk2 := sp_run_keys _ _ _ _ _ _ _ hsp
          rw [hk2]
          exact first_pass_bin_nodup _ _ hfp

/-- C5 witness: the amended statement evaluated on the example program. -/
theorem c5_image_assigned_unique_witness :
    (∀ kv ∈ ([("000100000000", some "0000000100000010"),
        ("000100000001", some "1111111111111111"),
        ("000100000010", some "0000000000000001")] : Dict), kv.2.isSome = true) ∧
      (dkeys ([("000100000000", some "0000000100000010"),
        ("000100000001", some "1111111111111111"),
        ("000100000010", some "0000000000000001")] : Dict)).Nodup :=
  c5_image_assigned_unique
    [["org", "100"], ["lda", "x"], ["hlt"], ["x,", "hex", "1"], ["end"]]
    [("lda", "000")] [("hlt", "1111111111111111")] [] _ rfl

/-- C6 (amended): a relocation directive line after the first line updates
the origin to its operand and resets the offset counter, so the next
program line receives address origin + 0 and the counter then stands at 1
(subsequent lines increment by one); but the directive's own iteration
does allocate a pending memory-image entry, keyed at the address computed
as origin minus one, which is pruned later if never overwritten. -/
theorem c6_org_line (s : S1) (v : String) (rest rest2 : Line) (t0 : String)
    (c1 c2 : String)
    (hc1 : addrCtr v (-1) = .ok c1) (hc2 : addrCtr v 0 = .ok c2)
    (ht0e : ¬t0 = "end") (ht0o : ¬t0 = "org") (ht0l : islabel t0 = false) :
    fp_step s ("org" :: v :: rest) =
      .cont ⟨v, 0, s.lc + 1, s.ast, dinsert s.bin c1 none⟩ ∧
    fp_step ⟨v, 0, s.lc + 1, s.ast, dinsert s.bin c1 none⟩ (t0 :: rest2) =
      .cont ⟨v, 1, s.lc + 2, s.ast, dinsert (dinsert s.bin c1 none) c2 none⟩ := by
  constructor
  · unfold fp_step
    simp only [List.head?_cons, List.getElem?_cons_succ, List.getElem?_cons_zero,
      Option.map_some']
    norm_num [islabel]
    rw [if_neg (show ¬("org" = "end") by decide), hc1]
    dsimp only
    rw [if_neg (show ¬('g' = ',') by decide)]
  · unfold fp_step
    simp only [List.head?_cons, if_neg ht0e, if_neg ht0o, hc2, ht0l,
      Bool.false_eq_true, if_false]
    norm_num

/-- C6 witness: the amended statement evaluated at a concrete state and
directive `org 200` followed by a halt line. -/
theorem c6_org_line_witness :
    fp_step ⟨"100", 1, 1, [], [("000100000000", none)]⟩ ["org", "200"] =
      .cont ⟨"200", 0, 2, [], [("000100000000", none), ("000111111111", none)]⟩ ∧
    fp_step ⟨"200", 0, 2, [], [("000100000000", none), ("000111111111", none)]⟩ ["hlt"] =
      .cont ⟨"200", 1, 3, [],
        [("000100000000", none), ("000111111111", none), ("001000000000", none)]⟩ :=
  c6_org_line ⟨"100", 1, 1, [], [("000100000000", none)]⟩ "200" [] [] "hlt"
    "000111111111" "001000000000" rfl rfl (by decide) (by decide) (by decide)

/-- C7: if, after the loop has continued through some prefix of the lines
between the first line and the terminal directive, it meets a line holding
exactly one token that is a label marker, the first pass aborts with the
assertion error that reports the offending line's 1-based number (the line
sits at 0-based source index `pre.length + 1`, so its 1-based number is
`pre.length + 2`). -/
theorem c7_bare_label_fails (asm : List Line) (l0 : Line) (org0 t : String)
    (pre post : List Line) (s : S1) (c : String)
    (h0 : asm.head? = some l0) (h1 : l0[1]? = some org0)
    (h2 : (asm.drop 1).dropLast = pre ++ [t] :: post)
    (h3 : fp_runC pre ⟨org0, 0, 0, [], []⟩ = some s)
    (h4 : islabel t = true)
    (h5 : addrCtr s.org s.inc = .ok c) :
    first_pass asm =
      .error ("Invalid Assembly Code, in line " ++ toString (pre.length + 2)) := by
  have hne := islabel_ne t h4
  have hstep : fp_step s [t] =
      .err ("Invalid Assembly Code, in line " ++ toString (s.lc + 2)) := by
    unfold fp_step
    simp only [List.head?_cons, if_neg hne.1, if_neg hne.2, h5, h4, if_pos,
      List.length_cons, List.length_nil]
    rw [if_neg (by omega : ¬(2 ≤ 0 + 1))]
  have hlc : s.lc = pre.length := by
    have := fp_runC_lc pre ⟨org0, 0, 0, [], []⟩ s h3
    simpa using this
  unfold first_pass
  rw [h0]
  dsimp only
  rw [h1]
  dsimp only
  rw [h2, fp_runC_append pre ([t] :: post) ⟨org0, 0, 0, [], []⟩ s h3]
  unfold fp_run
  rw [hstep, hlc]

/-- C7 witness: the claim evaluated on a three-line program whose second
line is a bare label. -/
theorem c7_bare_label_fails_witness :
    first_pass [["org", "100"], ["x,"], ["end"]] =
      .error ("Invalid Assembly Code, in line " ++ toString (2 : Nat)) :=
  c7_bare_label_fails [["org", "100"], ["x,"], ["end"]] ["org", "100"] "100" "x,"
    [] [] ⟨"100", 0, 0, [], []⟩ "000100000000" rfl rfl rfl rfl (by decide) rfl

/-- C10: defining a label that may already be bound raises no error: the
iteration continues normally, rebinding the label to the current line's
address (silently overwriting any earlier binding), and if no later line
defines the same label again the symbol table still binds it to this, the
last defining line's, address when the scan completes. -/
theorem c10_duplicate_label_last_wins (s1 : S1) (lbl r : String) (rs : Line)
    (post : List Line) (sf : S1) (c : String)
    (hl : islabel lbl = true)
    (hc : addrCtr s1.org s1.inc = .ok c)
    (hpost : ∀ p ∈ post, p.head? ≠ some lbl)
    (hrun : fp_run post
      ⟨s1.org, s1.inc + 1, s1.lc + 1, dinsert s1.ast lbl c, dinsert s1.bin c none⟩ = .ok sf) :
    fp_step s1 (lbl :: r :: rs) =
      .cont ⟨s1.org, s1.inc + 1, s1.lc + 1, dinsert s1.ast lbl c, dinsert s1.bin c none⟩ ∧
    dlookup sf.ast lbl = some c := by
  have hne := islabel_ne lbl hl
  constructor
  · unfold fp_step
    simp only [List.head?_cons, if_neg hne.1, if_neg hne.2, hc, hl, if_pos,
      List.length_cons]
    rw [if_pos (by omega : 2 ≤ rs.length + 1 + 1)]
  · rw [fp_run_ast_preserve post _ sf lbl hrun hpost]
    exact dlookup_dinsert s1.ast lbl c

/-- C10 witness: a state whose table already binds `x,` to address 0x100,
rebound by a second defining line to 0x101 with no error. -/
theorem c10_duplicate_label_last_wins_witness :
    fp_step ⟨"100", 1, 1, [("x,", "000100000000")], [("000100000000", none)]⟩
        ["x,", "hlt"] =
      .cont ⟨"100", 2, 2, [("x,", "000100000001")],
        [("000100000000", none), ("000100000001", none)]⟩ ∧
    dlookup ([("x,", "000100000001")] : Table) "x," = some "000100000001" :=
  c10_duplicate_label_last_wins
    ⟨"100", 1, 1, [("x,", "000100000000")], [("000100000000", none)]⟩ "x," "hlt" []
    [] ⟨"100", 2, 2, [("x,", "000100000001")],
      [("000100000000", none), ("000100000001", none)]⟩ "000100000001"
    (by decide) rfl (fun p hp => absurd hp (List.not_mem_nil p)) rfl

/-- C8: the second pass encodes a memory-reference instruction using only
the completed Pass-1 symbol table, never the position of the instruction
relative to its operand's defining line: in two runs over two programs —
one where the instruction precedes the defining line and one where it
follows it — whose symbol tables bind the operand label to the same
address `a`, the instruction line stores the identical word in both final
images, and its 12-bit address field is `a` in both. -/
theorem c8_forward_backward (mri rri ioi astA astB : Table) (binA binB : Dict)
    (preA postA preB postB : List Line) (m x : String) (rest : Line)
    (opc a : String) (flA flB : Bool) (sfA sfB : S2) (kA kB : String)
    (hend : ¬m = "end") (hhlt : (m :: x :: rest).contains "hlt" = false)
    (hr0 : dlookup rri m = none) (hr1 : dlookup rri x = none)
    (hm : dlookup mri m = some opc)
    (hopA : dlookup astA (x ++ ",") = some a)
    (hopB : dlookup astB (x ++ ",") = some a)
    (hrunA : sp_run mri rri ioi astA (preA ++ (m :: x :: rest) :: postA)
      ⟨1, binA, flA⟩ = .ok sfA)
    (hndA : (dkeys binA).Nodup) (hkA : (dkeys binA)[preA.length]? = some kA)
    (hneA : ∀ p ∈ preA, p.head? ≠ some "end")
    (hrunB : sp_run mri rri ioi astB (preB ++ (m :: x :: rest) :: postB)
      ⟨1, binB, flB⟩ = .ok sfB)
    (hndB : (dkeys binB).Nodup) (hkB : (dkeys binB)[preB.length]? = some kB)
    (hneB : ∀ p ∈ preB, p.head? ≠ some "end") :
    dlookup (prune sfA.bin) kA =
      some (some ((if ((m :: x :: rest).drop 1).contains "i" then "1" else "0") ++ opc ++ a)) ∧
    dlookup (prune sfB.bin) kB =
      some (some ((if ((m :: x :: rest).drop 1).contains "i" then "1" else "0") ++ opc ++ a)) := by
  constructor
  · exact dlookup_prune _ kA _ (mri_word_final mri rri ioi astA preA postA _ binA flA sfA kA _
      hrunA hndA hkA hneA (mriEncode_at0 rri mri astA m x rest opc a hend hhlt hr0 hr1 hm hopA))
  · exact dlookup_prune _ kB _ (mri_word_final mri rri ioi astB preB postB _ binB flB sfB kB _
      hrunB hndB hkB hneB (mriEncode_at0 rri mri astB m x rest opc a hend hhlt hr0 hr1 hm hopB))

/-- C8 witness: program A holds `lda x` before the defining line of `x,`
(a forward reference), program B holds it after (a backward reference);
both symbol tables bind `x,` to 0x102 and both final images store the word
0000000100000010 for the instruction. -/
theorem c8_forward_backward_witness :
    dlookup (prune (⟨4, [("000100000000", some "0000000100000010"),
        ("000100000001", some "1111111111111111"),
        ("000100000010", some "0000000000000001")], true⟩ : S2).bin)
      "000100000000" = some (some ((if (["x"] : List String).contains "i" then "1" else "0")
        ++ "000" ++ "000100000010")) ∧
    dlookup (prune (⟨5, [("000100000000", some "0111100000000000"),
        ("000100000001", some "1111111111111111"),
        ("000100000010", some "0000000000000001"),
        ("000100000011", some "0000000100000010")], true⟩ : S2).bin)
      "000100000011" = some (some ((if (["x"] : List String).contains "i" then "1" else "0")
        ++ "000" ++ "000100000010")) :=
  c8_forward_backward [("lda", "000")]
    [("hlt", "1111111111111111"), ("cla", "0111100000000000")] []
    [("x,", "000100000010")] [("x,", "000100000010")]
    [("000100000000", none), ("000100000001", none), ("000100000010", none)]
    [("000100000000", none), ("000100000001", none), ("000100000010", none),
      ("000100000011", none)]
    [] [["hlt"], ["x,", "hex", "1"]]
    [["cla"], ["hlt"], ["x,", "hex", "1"]] []
    "lda" "x" [] "000" "000100000010" false false
    ⟨4, [("000100000000", some "0000000100000010"),
        ("000100000001", some "1111111111111111"),
        ("000100000010", some "0000000000000001")], true⟩
    ⟨5, [("000100000000", some "0111100000000000"),
        ("000100000001", some "1111111111111111"),
        ("000100000010", some "0000000000000001"),
        ("000100000011", some "0000000100000010")], true⟩
    "000100000000" "000100000011"
    (by decide) rfl rfl rfl rfl rfl rfl
    rfl (by decide) rfl (fun p hp => absurd hp (List.not_mem_nil p))
    rfl (by decide) rfl (by decide)
